import Mathlib

/-!
Shallow embedding of the TnSeq read-processing pipeline
(`scripts/filter_trim.py` and `scripts/process_sam.py`) together with
proofs of the functional properties stated in the design document.

Conventions of the embedding:
* Python strings become `List Char`; Python ints become `Int` or `Nat`.
* numpy arrays become `List`s; `np.unique(..., return_counts=True)` becomes
  sorting the deduplicated list and counting occurrences.
* Fallible steps (the `sys.exit` consistency checks) return `Option`.
-/

namespace UmiTnseq

/-! ### `process_sam.get_positions` -/

/-- One record of a SAM file, as the script reads it through pysam:
the list of covered reference positions (`get_reference_positions`,
empty when unmapped), whether the aligner set the `XS` tag (secondary
alignment present, i.e. non-unique), and the strand bit.  In pysam
`is_forward` is by definition the negation of `is_reverse`. -/
structure SamRead where
  ref_positions : List Nat
  has_XS : Bool
  is_reverse : Bool

/-- pysam's `read.is_forward` (`not read.is_reverse`). -/
def SamRead.is_forward (r : SamRead) : Bool := !r.is_reverse

/-- Body of the loop of `get_positions` (`process_sam.py` lines 67–79):
mapped (`pos` non-empty) and unique (no `XS` tag) reads resolve to the
first covered position on the forward strand and the last on the
reverse strand; every other read resolves to `-1`. -/
def resolvePos (r : SamRead) : Int :=
  if r.ref_positions ≠ [] ∧ r.has_XS = false then
    if r.is_forward then (r.ref_positions.headD 0 : Int)
    else if r.is_reverse then (r.ref_positions.getLastD 0 : Int)
    else -1
  else -1

/-- `get_positions` (`process_sam.py` lines 59–86): the positions array,
one entry per SAM record. -/
def get_positions (reads : List SamRead) : List Int :=
  reads.map resolvePos

/-! ### Theorems for claims C3 and C7 -/

/-- C3: the position resolver returns the first covered reference
position for a non-empty, unique, forward-strand record; the last
covered position for a reverse-strand record; and the invalid sentinel
whenever the record is unmapped (no covered positions) or non-unique.
(Under pysam's semantics `is_forward = ¬ is_reverse`, so the strand is
never undetermined; the code's dead third branch still returns the
sentinel.) -/
theorem resolvePos_spec (r : SamRead) :
    (r.ref_positions ≠ [] → r.has_XS = false →
      (r.is_reverse = false → resolvePos r = (r.ref_positions.headD 0 : Int)) ∧
      (r.is_reverse = true → resolvePos r = (r.ref_positions.getLastD 0 : Int))) ∧
    (r.ref_positions = [] → resolvePos r = -1) ∧
    (r.has_XS = true → resolvePos r = -1) := by
  unfold resolvePos SamRead.is_forward
  refine ⟨fun hne hxs => ?_, fun hnil => ?_, fun hxs => ?_⟩
  · constructor
    · intro hrev
      rw [if_pos ⟨hne, hxs⟩, hrev]
      simp
    · intro hrev
      rw [if_pos ⟨hne, hxs⟩, hrev]
      simp
  · rw [if_neg]
    simp [hnil]
  · rw [if_neg]
    simp [hxs]

/-- Witness for C3: concrete records exercising the forward, reverse and
unmapped cases. -/
theorem resolvePos_spec_witness :
    resolvePos ⟨[4, 9], false, false⟩ = 4 ∧
    resolvePos ⟨[4, 9], false, true⟩ = 9 ∧
    resolvePos ⟨[], false, false⟩ = -1 ∧
    resolvePos ⟨[4, 9], true, false⟩ = -1 := by
  refine ⟨?_, ?_, ?_, ?_⟩
  · exact ((resolvePos_spec ⟨[4, 9], false, false⟩).1 (by simp) rfl).1 rfl
  · exact ((resolvePos_spec ⟨[4, 9], false, true⟩).1 (by simp) rfl).2 rfl
  · exact (resolvePos_spec ⟨[], false, false⟩).2.1 rfl
  · exact (resolvePos_spec ⟨[4, 9], true, false⟩).2.2 rfl

/-- C7 counterexample: the invalid position is NOT a distinct tagged
state.  The resolver returns the literal integer `-1` in the very same
`Int` type as valid coordinates, and ordering comparisons against real
coordinates go through (the sentinel simply compares below them). -/
theorem invalid_sentinel_is_literal_minus_one :
    resolvePos ⟨[], false, false⟩ = (-1 : Int) ∧
    resolvePos ⟨[], false, false⟩ < resolvePos ⟨[3], false, false⟩ := by
  constructor <;> decide

/-- C7 (amended): although the sentinel is the literal integer `-1`,
every resolved position is either that sentinel or a non-negative
coordinate, so the sentinel is never equal to coordinate `0` nor to any
valid (non-negative) coordinate. -/
theorem resolvePos_invalid_or_nonneg (r : SamRead) :
    resolvePos r = -1 ∨ 0 ≤ resolvePos r := by
  unfold resolvePos
  split
  · split
    · right
      exact Int.natCast_nonneg _
    · split
      · right
        exact Int.natCast_nonneg _
      · left
        rfl
  · left
    rfl

/-! ### `process_sam.process_umi_positions` — the composite key -/

/-- Base-10 digits of `n`, least significant first, by fuel-bounded
division (structural recursion, so the kernel can evaluate it). -/
def toDigitsRev : Nat → Nat → List Nat
  | 0, _ => []
  | fuel + 1, n => if n = 0 then [] else n % 10 :: toDigitsRev fuel (n / 10)

/-- Decimal rendering of a natural number, most significant digit first,
as Python's `str` produces it (`"0"` for zero, no leading zeros). -/
def renderNat (n : Nat) : List Char :=
  if n = 0 then ['0'] else ((toDigitsRev n n).map Nat.digitChar).reverse

theorem toDigitsRev_eq_digits : ∀ fuel n, n ≤ fuel → toDigitsRev fuel n = Nat.digits 10 n := by
  intro fuel
  induction fuel with
  | zero =>
    intro n hn
    interval_cases n
    simp [toDigitsRev]
  | succ f ih =>
    intro n hn
    by_cases h0 : n = 0
    · rw [h0]
      simp [toDigitsRev]
    · rw [toDigitsRev, if_neg h0,
        Nat.digits_def' (b := 10) (by norm_num) (Nat.pos_of_ne_zero h0),
        ih (n / 10) (by omega)]

/-- `renderNat` in terms of `Nat.digits`. -/
theorem renderNat_eq (n : Nat) :
    renderNat n = if n = 0 then ['0'] else ((Nat.digits 10 n).map Nat.digitChar).reverse := by
  unfold renderNat
  rw [toDigitsRev_eq_digits n n le_rfl]

/-- Decimal rendering of an integer, as a Python f-string renders it
(a leading `'-'` for values below zero). -/
def renderInt (p : Int) : List Char :=
  if p < 0 then '-' :: renderNat p.natAbs else renderNat p.toNat

/-- The comprehension body of `process_umi_positions`
(`process_sam.py` line 134): the composite key `f"..."` is the UMI
immediately followed by the decimal rendering of the mate position,
with no separator. -/
def combineKey (umi : List Char) (pos : Int) : List Char :=
  umi ++ renderInt pos

/-- `process_umi_positions` (`process_sam.py` lines 124–136): exits
(`none`) when the UMI list and the mate position array disagree in
length, otherwise zips them into composite keys. -/
def process_umi_positions (umi_list : List (List Char))
    (positions_r2_pf : List Int) : Option (List (List Char)) :=
  if umi_list.length = positions_r2_pf.length then
    some ((umi_list.zip positions_r2_pf).map fun x => combineKey x.1 x.2)
  else none

theorem digitChar_injOn (a b : Nat) (ha : a < 10) (hb : b < 10)
    (h : Nat.digitChar a = Nat.digitChar b) : a = b := by
  have key : ∀ x y : Fin 10, Nat.digitChar x.val = Nat.digitChar y.val → x = y := by decide
  exact congrArg Fin.val (key ⟨a, ha⟩ ⟨b, hb⟩ h)

theorem digitChar_ne_minus (d : Nat) (hd : d < 10) : Nat.digitChar d ≠ '-' := by
  have key : ∀ x : Fin 10, Nat.digitChar x.val ≠ '-' := by decide
  exact key ⟨d, hd⟩

theorem minus_not_mem_renderNat (n : Nat) : '-' ∉ renderNat n := by
  rw [renderNat_eq]
  split
  · simp
  · intro hmem
    rw [List.mem_reverse, List.mem_map] at hmem
    obtain ⟨d, hd, hdc⟩ := hmem
    exact digitChar_ne_minus d (Nat.digits_lt_base (by norm_num) hd) hdc

theorem map_digitChar_inj :
    ∀ l₁ l₂ : List Nat, (∀ d ∈ l₁, d < 10) → (∀ d ∈ l₂, d < 10) →
      l₁.map Nat.digitChar = l₂.map Nat.digitChar → l₁ = l₂ := by
  intro l₁
  induction l₁ with
  | nil =>
    intro l₂ _ _ h
    cases l₂ with
    | nil => rfl
    | cons b t => simp at h
  | cons a t ih =>
    intro l₂ h₁ h₂ h
    cases l₂ with
    | nil => simp at h
    | cons b t₂ =>
      simp only [List.map_cons, List.cons.injEq] at h
      have hab : a = b :=
        digitChar_injOn a b (h₁ a (by simp)) (h₂ b (by simp)) h.1
      have ht : t = t₂ :=
        ih t₂ (fun d hd => h₁ d (by simp [hd])) (fun d hd => h₂ d (by simp [hd])) h.2
      rw [hab, ht]

theorem renderNat_injective (m n : Nat) (h : renderNat m = renderNat n) : m = n := by
  have key : ∀ k : Nat, k ≠ 0 → renderNat k ≠ ['0'] := by
    intro k hk hcon
    rw [renderNat_eq, if_neg hk] at hcon
    have hlen : (Nat.digits 10 k).length = 1 := by
      have := congrArg List.length hcon
      simpa using this
    obtain ⟨d, hd⟩ := List.length_eq_one.mp hlen
    rw [hd] at hcon
    simp only [List.map_cons, List.map_nil, List.reverse_cons, List.reverse_nil,
      List.nil_append, List.cons.injEq, and_true] at hcon
    have hd0 : d = 0 := digitChar_injOn d 0 (by
      exact Nat.digits_lt_base (by norm_num) (by rw [hd]; simp)) (by norm_num) hcon
    apply hk
    have hof := Nat.ofDigits_digits 10 k
    rw [hd, hd0] at hof
    simpa [Nat.ofDigits] using hof.symm
  by_cases hm : m = 0 <;> by_cases hn : n = 0
  · rw [hm, hn]
  · exfalso
    apply key n hn
    rw [← h, hm]
    rfl
  · exfalso
    apply key m hm
    rw [h, hn]
    rfl
  · rw [renderNat_eq, if_neg hm, renderNat_eq, if_neg hn] at h
    have h' := List.reverse_injective h
    have hdig : Nat.digits 10 m = Nat.digits 10 n :=
      map_digitChar_inj _ _ (fun d hd => Nat.digits_lt_base (by norm_num) hd)
        (fun d hd => Nat.digits_lt_base (by norm_num) hd) h'
    exact Nat.digits_inj_iff.mp hdig

theorem renderInt_injective (p q : Int) (h : renderInt p = renderInt q) : p = q := by
  unfold renderInt at h
  by_cases hp : p < 0 <;> by_cases hq : q < 0
  · rw [if_pos hp, if_pos hq] at h
    have := renderNat_injective _ _ (List.cons_injective h)
    omega
  · exfalso
    rw [if_pos hp, if_neg hq] at h
    exact minus_not_mem_renderNat q.toNat (h ▸ List.mem_cons_self '-' _)
  · exfalso
    rw [if_neg hp, if_pos hq] at h
    exact minus_not_mem_renderNat p.toNat (h.symm ▸ List.mem_cons_self '-' _)
  · rw [if_neg hp, if_neg hq] at h
    have := renderNat_injective _ _ h
    omega

/-- C10: with UMIs of one fixed length, the composite key construction
is injective — two (UMI, mate-position) pairs yield the same key exactly
when both components agree, so no two distinct pairs are collapsed into
the same deduplication group. -/
theorem combineKey_inj (u1 u2 : List Char) (p1 p2 : Int)
    (hlen : u1.length = u2.length) :
    combineKey u1 p1 = combineKey u2 p2 ↔ u1 = u2 ∧ p1 = p2 := by
  constructor
  · intro h
    obtain ⟨hu, hr⟩ := List.append_inj h hlen
    exact ⟨hu, renderInt_injective _ _ hr⟩
  · rintro ⟨rfl, rfl⟩
    rfl

/-- Witness for C10 at a concrete pair of equal-length UMIs. -/
theorem combineKey_inj_witness :
    combineKey ("ACGT".toList) 500 = combineKey ("AAAA".toList) (-1) ↔
      "ACGT".toList = "AAAA".toList ∧ (500 : Int) = -1 :=
  combineKey_inj _ _ _ _ rfl

/-! ### `process_sam.discard_pcr_duplicates` -/

/-- Comparison of position/key pairs by position — the order `np.argsort`
applies to `filtered_positions` (and, through the shared index
permutation, to `filtered_umi`). -/
def leFst (a b : Int × List Char) : Prop := a.1 ≤ b.1

instance : DecidableRel leFst := fun a b => inferInstanceAs (Decidable (a.1 ≤ b.1))

instance : IsTotal (Int × List Char) leFst := ⟨fun a b => Int.le_total a.1 b.1⟩

instance : IsTrans (Int × List Char) leFst := ⟨fun _ _ _ h₁ h₂ => le_trans h₁ h₂⟩

/-- The element test `pos != -1` of the validity mask
(`process_sam.py` lines 145–148). -/
def validPos (p : Int) : Bool := p != -1

theorem validPos_iff (p : Int) : validPos p = true ↔ p ≠ -1 := by
  simp [validPos]

/-- `np.unique(l, return_counts=True)`: the sorted distinct values of
`l`, paired with their multiplicities in `l`. -/
def np_unique_counts (l : List Int) : List Int × List Nat :=
  let u := List.insertionSort (· ≤ ·) l.dedup
  (u, u.map fun v => l.count v)

/-- The cumulative start/end slicing loop of `discard_pcr_duplicates`
(`process_sam.py` lines 163–170): the slice boundaries are the running
sums of the group sizes, so the loop takes successive blocks of the
given sizes out of `sorted_umis` and records `len(set(block))`. -/
def groupSetSizes : List Nat → List (List Char) → List Nat
  | [], _ => []
  | c :: cs, us => (us.take c).dedup.length :: groupSetSizes cs (us.drop c)

/-- `discard_pcr_duplicates` (`process_sam.py` lines 139–173): keep the
entries whose first-read position is not `-1`, count raw occurrences of
each distinct position (`np.unique(..., return_counts=True)`), sort the
(position, key) pairs by position and count the distinct composite keys
inside each position group.  Returns (unique sorted positions, raw
counts, UMI-corrected counts). -/
def discard_pcr_duplicates (positions_combined : List Int)
    (combined_umi : List (List Char)) : List Int × List Nat × List Nat :=
  let filtered_positions := positions_combined.filter validPos
  let filtered_umi :=
    ((combined_umi.zip positions_combined).filter fun x => validPos x.2).map fun x => x.1
  let counts := (np_unique_counts filtered_positions).2
  let sorted_pairs := List.insertionSort leFst (filtered_positions.zip filtered_umi)
  let sorted_umis := sorted_pairs.map fun x => x.2
  let uc2 := np_unique_counts (sorted_pairs.map fun x => x.1)
  (uc2.1, counts, groupSetSizes uc2.2 sorted_umis)

/-- The composite keys observed at first-read position `v` among a list
of (position, key) pairs. -/
def keysAt (v : Int) (pairs : List (Int × List Char)) : List (List Char) :=
  (pairs.filter fun x => x.1 = v).map fun x => x.2

theorem count_map_fst (v : Int) (sp : List (Int × List Char)) :
    (sp.map fun x => x.1).count v = (sp.filter fun x => x.1 = v).length := by
  induction sp with
  | nil => simp
  | cons a t ih =>
    rw [List.map_cons, List.count_cons, List.filter_cons]
    by_cases h : a.1 = v
    · simp [h, ih]
    · simp [beq_iff_eq, h, Ne.symm h, ih]

theorem np_unique_fst_sorted (l : List Int) :
    ((np_unique_counts l).1).Sorted (· < ·) := by
  have hs : (List.insertionSort (· ≤ ·) l.dedup).Sorted (· ≤ ·) :=
    List.sorted_insertionSort _ _
  have hn : (List.insertionSort (· ≤ ·) l.dedup).Nodup :=
    (List.perm_insertionSort _ l.dedup).nodup_iff.mpr l.nodup_dedup
  exact (hs.and hn).imp fun h => lt_of_le_of_ne h.1 h.2

theorem mem_np_unique_fst (l : List Int) (v : Int) :
    v ∈ (np_unique_counts l).1 ↔ v ∈ l := by
  simp [np_unique_counts, List.mem_insertionSort, List.mem_dedup]

theorem np_unique_fst_eq_of_perm (l₁ l₂ : List Int) (h : l₁.Perm l₂) :
    (np_unique_counts l₁).1 = (np_unique_counts l₂).1 :=
  List.eq_of_perm_of_sorted
    (((List.perm_insertionSort _ _).trans h.dedup).trans
      (List.perm_insertionSort _ _).symm)
    (List.sorted_insertionSort _ _) (List.sorted_insertionSort _ _)

theorem map_fst_filter_zip :
    ∀ (ps : List Int) (us : List (List Char)), ps.length = us.length →
      (((ps.zip us).filter fun x => validPos x.1).map fun x => x.1) =
        ps.filter validPos := by
  intro ps
  induction ps with
  | nil =>
    intro us _
    simp
  | cons p pt ih =>
    intro us hlen
    cases us with
    | nil => simp at hlen
    | cons u ut =>
      cases hv : validPos p <;>
        simp [List.zip_cons_cons, List.filter_cons, hv,
          ih ut (by simpa using hlen)]

theorem zip_filter_align :
    ∀ (ps : List Int) (us : List (List Char)), ps.length = us.length →
      (ps.filter validPos).zip
          (((us.zip ps).filter fun x => validPos x.2).map fun x => x.1) =
        (ps.zip us).filter fun x => validPos x.1 := by
  intro ps
  induction ps with
  | nil =>
    intro us _
    simp
  | cons p pt ih =>
    intro us hlen
    cases us with
    | nil => simp at hlen
    | cons u ut =>
      cases hv : validPos p <;>
        simp [List.zip_cons_cons, List.filter_cons, hv,
          ih ut (by simpa using hlen)]

/-- In a list of pairs sorted by first component in which `v` is a lower
bound, the entries with first component `v` form exactly the prefix of
length `count v`; the remainder is exactly the entries with a different
first component. -/
theorem sorted_prefix_groups (v : Int) :
    ∀ sp : List (Int × List Char),
      List.Pairwise leFst sp →
      (∀ x ∈ sp, v ≤ x.1) →
      sp.take ((sp.map fun x => x.1).count v) = (sp.filter fun x => x.1 = v) ∧
      sp.drop ((sp.map fun x => x.1).count v) = (sp.filter fun x => x.1 ≠ v) := by
  intro sp
  induction sp with
  | nil => simp
  | cons a t ih =>
    intro hpw hv
    obtain ⟨ha, hpt⟩ := List.pairwise_cons.mp hpw
    by_cases h : a.1 = v
    · have hc : ((a :: t).map fun x => x.1).count v =
          ((t.map fun x => x.1).count v) + 1 := by
        simp [List.count_cons, h]
      obtain ⟨iht, ihd⟩ := ih hpt fun x hx => hv x (List.mem_cons_of_mem a hx)
      rw [hc]
      constructor
      · rw [List.take_succ_cons, List.filter_cons, iht]
        simp [h]
      · rw [List.drop_succ_cons, List.filter_cons, ihd]
        simp [h]
    · have hvlt : v < a.1 := lt_of_le_of_ne (hv a (by simp)) fun e => h e.symm
      have hnone : ∀ x ∈ a :: t, x.1 ≠ v := by
        intro x hx
        rcases List.mem_cons.mp hx with rfl | hx'
        · exact h
        · have hle : a.1 ≤ x.1 := ha x hx'
          omega
      have hc : ((a :: t).map fun x => x.1).count v = 0 := by
        rw [List.count_eq_zero]
        intro hmem
        rw [List.mem_map] at hmem
        obtain ⟨x, hx, hx1⟩ := hmem
        exact hnone x hx hx1
      rw [hc]
      constructor
      · rw [List.take_zero, eq_comm, List.filter_eq_nil_iff]
        intro x hx
        simp [hnone x hx]
      · rw [List.drop_zero, eq_comm, List.filter_eq_self]
        intro x hx
        simp [hnone x hx]

/-- The cumulative-slice loop computes, for each distinct position in
ascending order, the number of distinct keys among the pairs carrying
that position: slicing a position-sorted pair list at the cumulative
group sizes recovers exact grouping by position. -/
theorem groupSetSizes_spec :
    ∀ (u : List Int) (sp : List (Int × List Char)),
      List.Pairwise leFst sp →
      u.Sorted (· < ·) →
      (∀ x ∈ sp, x.1 ∈ u) →
      groupSetSizes (u.map fun v => (sp.map fun x => x.1).count v)
          (sp.map fun x => x.2) =
        u.map fun v => (keysAt v sp).dedup.length := by
  intro u
  induction u with
  | nil =>
    intro sp _ _ hmem
    have hsp : sp = [] := by
      cases sp with
      | nil => rfl
      | cons a t => exact absurd (hmem a (by simp)) (by simp)
    rw [hsp]
    rfl
  | cons v vs ih =>
    intro sp hpw hsort hmem
    obtain ⟨hvlt, hsvs⟩ := List.sorted_cons.mp hsort
    have hvle : ∀ x ∈ sp, v ≤ x.1 := by
      intro x hx
      rcases List.mem_cons.mp (hmem x hx) with h1 | h2
      · exact le_of_eq h1.symm
      · exact le_of_lt (hvlt _ h2)
    obtain ⟨htake, hdrop⟩ := sorted_prefix_groups v sp hpw hvle
    rw [List.map_cons, List.map_cons, groupSetSizes]
    have hhead : ((sp.map fun x => x.2).take ((sp.map fun x => x.1).count v)) =
        keysAt v sp := by
      rw [← List.map_take, htake]
      rfl
    have htail : ((sp.map fun x => x.2).drop ((sp.map fun x => x.1).count v)) =
        ((sp.filter fun x => x.1 ≠ v).map fun x => x.2) := by
      rw [← List.map_drop, hdrop]
    rw [hhead, htail]
    congr 1
    have hne : ∀ w ∈ vs, w ≠ v := fun w hw => ne_of_gt (hvlt w hw)
    have hcnt : ∀ w ∈ vs, (sp.map fun x => x.1).count w =
        (((sp.filter fun x => x.1 ≠ v).map fun x => x.1).count w) := by
      intro w hw
      rw [count_map_fst, count_map_fst, List.filter_filter]
      congr 1
      apply List.filter_congr
      intro x _
      by_cases hx : x.1 = w
      · simp [hx, hne w hw]
      · simp [hx]
    have hkeys : ∀ w ∈ vs, keysAt w sp = keysAt w (sp.filter fun x => x.1 ≠ v) := by
      intro w hw
      unfold keysAt
      rw [List.filter_filter]
      congr 1
      apply List.filter_congr
      intro x _
      by_cases hx : x.1 = w
      · simp [hx, hne w hw]
      · simp [hx]
    rw [List.map_congr_left hcnt,
      ih (sp.filter fun x => x.1 ≠ v) (hpw.filter _) hsvs ?_,
      ← List.map_congr_left fun w hw => congrArg (fun l => l.dedup.length) (hkeys w hw)]
    intro x hx
    obtain ⟨hxsp, hxne⟩ := List.mem_filter.mp hx
    rcases List.mem_cons.mp (hmem x hxsp) with h1 | h2
    · simp [h1] at hxne
    · exact h2

/-- Full characterization of `discard_pcr_duplicates` for parallel
inputs: the output rows are the sorted distinct valid positions; raw
counts are their multiplicities among the valid positions; corrected
counts are the numbers of distinct keys among the valid entries at each
position. -/
theorem discard_pcr_duplicates_eq (ps : List Int) (us : List (List Char))
    (hlen : ps.length = us.length) :
    discard_pcr_duplicates ps us =
      ((np_unique_counts (ps.filter validPos)).1,
       (np_unique_counts (ps.filter validPos)).1.map fun v =>
         (ps.filter validPos).count v,
       (np_unique_counts (ps.filter validPos)).1.map fun v =>
         (keysAt v ((ps.zip us).filter fun x => validPos x.1)).dedup.length) := by
  have hzip := zip_filter_align ps us hlen
  have hmapfst := map_fst_filter_zip ps us hlen
  have key : ∀ S : List (Int × List Char),
      S.Perm ((ps.zip us).filter fun x => validPos x.1) →
      List.Pairwise leFst S →
      ((np_unique_counts (S.map fun x => x.1)).1,
       (np_unique_counts (ps.filter validPos)).2,
       groupSetSizes (np_unique_counts (S.map fun x => x.1)).2
         (S.map fun x => x.2)) =
      ((np_unique_counts (ps.filter validPos)).1,
       (np_unique_counts (ps.filter validPos)).1.map fun v =>
         (ps.filter validPos).count v,
       (np_unique_counts (ps.filter validPos)).1.map fun v =>
         (keysAt v ((ps.zip us).filter fun x => validPos x.1)).dedup.length) := by
    intro S hperm hpw
    have hfst : (S.map fun x => x.1).Perm (ps.filter validPos) := by
      rw [← hmapfst]
      exact hperm.map _
    have hu : (np_unique_counts (S.map fun x => x.1)).1 =
        (np_unique_counts (ps.filter validPos)).1 :=
      np_unique_fst_eq_of_perm _ _ hfst
    have hgss := groupSetSizes_spec (np_unique_counts (S.map fun x => x.1)).1 S hpw
      (np_unique_fst_sorted _)
      (fun x hx => (mem_np_unique_fst _ _).mpr (List.mem_map_of_mem _ hx))
    simp only [Prod.mk.injEq]
    refine ⟨hu, rfl, ?_⟩
    have h2 : (np_unique_counts (S.map fun x => x.1)).2 =
        (np_unique_counts (S.map fun x => x.1)).1.map fun v =>
          (S.map fun x => x.1).count v := rfl
    rw [h2, hgss, hu]
    apply List.map_congr_left
    intro v _
    exact ((hperm.filter _).map _).dedup.length_eq
  have hperm0 : (List.insertionSort leFst ((ps.filter validPos).zip
      (((us.zip ps).filter fun x => validPos x.2).map fun x => x.1))).Perm
      ((ps.zip us).filter fun x => validPos x.1) := by
    rw [hzip]
    exact List.perm_insertionSort _ _
  have hpw0 : List.Pairwise leFst (List.insertionSort leFst ((ps.filter validPos).zip
      (((us.zip ps).filter fun x => validPos x.2).map fun x => x.1))) :=
    List.sorted_insertionSort leFst _
  calc discard_pcr_duplicates ps us
      = ((np_unique_counts ((List.insertionSort leFst ((ps.filter validPos).zip
            (((us.zip ps).filter fun x => validPos x.2).map fun x => x.1))).map
              fun x => x.1)).1,
         (np_unique_counts (ps.filter validPos)).2,
         groupSetSizes
           (np_unique_counts ((List.insertionSort leFst ((ps.filter validPos).zip
             (((us.zip ps).filter fun x => validPos x.2).map fun x => x.1))).map
               fun x => x.1)).2
           ((List.insertionSort leFst ((ps.filter validPos).zip
             (((us.zip ps).filter fun x => validPos x.2).map fun x => x.1))).map
               fun x => x.2)) := rfl
    _ = _ := key _ hperm0 hpw0

/-- C2: on parallel arrays restricted to valid first-read positions, the
collapser emits one row per distinct position present in the input,
sorted strictly ascending; each row's raw count is the multiplicity of
its position in the input, and each row's corrected count is the number
of distinct composite keys among the input entries at that position
(grouping by exact equality). -/
theorem dedup_collapse_spec (ps : List Int) (us : List (List Char))
    (hlen : ps.length = us.length) (hvalid : ∀ p ∈ ps, p ≠ -1) :
    ((discard_pcr_duplicates ps us).1.Sorted (· < ·)) ∧
    (∀ p : Int, p ∈ (discard_pcr_duplicates ps us).1 ↔ p ∈ ps) ∧
    ((discard_pcr_duplicates ps us).2.1 =
      (discard_pcr_duplicates ps us).1.map fun v => ps.count v) ∧
    ((discard_pcr_duplicates ps us).2.2 =
      (discard_pcr_duplicates ps us).1.map fun v =>
        (((ps.zip us).filter fun x => x.1 = v).map fun x => x.2).dedup.length) := by
  have hfp : ps.filter validPos = ps :=
    List.filter_eq_self.mpr fun p hp => (validPos_iff p).mpr (hvalid p hp)
  have hvz : ((ps.zip us).filter fun x => validPos x.1) = ps.zip us :=
    List.filter_eq_self.mpr fun x hx =>
      (validPos_iff _).mpr (hvalid x.1 (List.of_mem_zip hx).1)
  have hd := discard_pcr_duplicates_eq ps us hlen
  rw [hfp, hvz] at hd
  rw [hd]
  exact ⟨np_unique_fst_sorted ps, fun p => mem_np_unique_fst ps p, rfl, rfl⟩

/-- Witness for C2 at a concrete valid input. -/
theorem dedup_collapse_spec_witness :
    ((discard_pcr_duplicates [7, 5, 7] ["A".toList, "B".toList, "A".toList]).1.Sorted
        (· < ·)) ∧
    (∀ p : Int,
      p ∈ (discard_pcr_duplicates [7, 5, 7] ["A".toList, "B".toList, "A".toList]).1 ↔
        p ∈ [(7 : Int), 5, 7]) ∧
    ((discard_pcr_duplicates [7, 5, 7] ["A".toList, "B".toList, "A".toList]).2.1 =
      (discard_pcr_duplicates [7, 5, 7] ["A".toList, "B".toList, "A".toList]).1.map
        fun v => [(7 : Int), 5, 7].count v) ∧
    ((discard_pcr_duplicates [7, 5, 7] ["A".toList, "B".toList, "A".toList]).2.2 =
      (discard_pcr_duplicates [7, 5, 7] ["A".toList, "B".toList, "A".toList]).1.map
        fun v =>
          ((([(7 : Int), 5, 7].zip ["A".toList, "B".toList, "A".toList]).filter
            fun x => x.1 = v).map fun x => x.2).dedup.length) :=
  dedup_collapse_spec [7, 5, 7] ["A".toList, "B".toList, "A".toList]
    (by decide) (by decide)

/-- C9: every row of the site table satisfies
`raw_count ≥ umi_corrected_count ≥ 1` (lengths of the three output
columns agree, and row-wise the corrected count is between 1 and the raw
count). -/
theorem site_counts_bounds (ps : List Int) (us : List (List Char))
    (hlen : ps.length = us.length) :
    ((discard_pcr_duplicates ps us).2.1.length =
      (discard_pcr_duplicates ps us).1.length) ∧
    ((discard_pcr_duplicates ps us).2.2.length =
      (discard_pcr_duplicates ps us).1.length) ∧
    ∀ rc uc : Nat,
      (rc, uc) ∈ (discard_pcr_duplicates ps us).2.1.zip
        (discard_pcr_duplicates ps us).2.2 →
      1 ≤ uc ∧ uc ≤ rc := by
  have hmapfst := map_fst_filter_zip ps us hlen
  have hd := discard_pcr_duplicates_eq ps us hlen
  rw [hd]
  refine ⟨by simp, by simp, ?_⟩
  intro rc uc hmem
  rw [List.zip_map', List.mem_map] at hmem
  obtain ⟨v, hv, heq⟩ := hmem
  have hvfp : v ∈ ps.filter validPos := (mem_np_unique_fst _ _).mp hv
  have hvvz : v ∈ (((ps.zip us).filter fun x => validPos x.1).map fun x => x.1) := by
    rw [hmapfst]
    exact hvfp
  obtain ⟨x, hxvz, hxv⟩ := List.mem_map.mp hvvz
  cases heq
  constructor
  · have hne : keysAt v ((ps.zip us).filter fun x => validPos x.1) ≠ [] := by
      unfold keysAt
      simp only [ne_eq, List.map_eq_nil_iff, List.filter_eq_nil_iff, not_forall]
      exact ⟨x, hxvz, by simp [hxv]⟩
    have := (List.dedup_eq_nil (keysAt v ((ps.zip us).filter fun x => validPos x.1))).not.mpr hne
    cases hdn : (keysAt v ((ps.zip us).filter fun x => validPos x.1)).dedup with
    | nil => exact absurd hdn this
    | cons a t => simp
  · calc (keysAt v ((ps.zip us).filter fun x => validPos x.1)).dedup.length
        ≤ (keysAt v ((ps.zip us).filter fun x => validPos x.1)).length :=
          (List.dedup_sublist _).length_le
      _ = (((ps.zip us).filter fun x => validPos x.1).filter fun x => x.1 = v).length := by
          rw [keysAt, List.length_map]
      _ = ((((ps.zip us).filter fun x => validPos x.1).map fun x => x.1).count v) :=
          (count_map_fst _ _).symm
      _ = (ps.filter validPos).count v := by rw [hmapfst]

/-- Witness for C9 at a concrete input containing an invalid position. -/
theorem site_counts_bounds_witness :
    ((discard_pcr_duplicates [7, -1, 7] ["A".toList, "B".toList, "A".toList]).2.1.length =
      (discard_pcr_duplicates [7, -1, 7] ["A".toList, "B".toList, "A".toList]).1.length) ∧
    ((discard_pcr_duplicates [7, -1, 7] ["A".toList, "B".toList, "A".toList]).2.2.length =
      (discard_pcr_duplicates [7, -1, 7] ["A".toList, "B".toList, "A".toList]).1.length) ∧
    ∀ rc uc : Nat,
      (rc, uc) ∈ (discard_pcr_duplicates [7, -1, 7]
          ["A".toList, "B".toList, "A".toList]).2.1.zip
        (discard_pcr_duplicates [7, -1, 7] ["A".toList, "B".toList, "A".toList]).2.2 →
      1 ≤ uc ∧ uc ≤ rc :=
  site_counts_bounds [7, -1, 7] ["A".toList, "B".toList, "A".toList] (by decide)

/-- C1 counterexample: a read whose FIRST position is valid but whose
mate position is invalid (so its composite key ends in the rendered
`"-1"`) is NOT excluded: it produces a site-table row, and the sum of
raw counts is 1 although the number of reads with both positions valid
is 0. -/
theorem mate_invalid_read_counted :
    discard_pcr_duplicates [5] [combineKey ("AAAACCGGTT".toList) (-1)] =
      ([5], [1], [1]) := by
  decide

/-- C1 (amended): the sum of `raw_count` over all output rows equals the
number of reads whose FIRST-read position is valid, with no condition at
all on the mate position (mate validity only feeds the composite key's
text). -/
theorem sum_raw_counts_eq_valid_first (ps : List Int) (us : List (List Char)) :
    (discard_pcr_duplicates ps us).2.1.sum = (ps.filter validPos).length := by
  have hraw : (discard_pcr_duplicates ps us).2.1 =
      (np_unique_counts (ps.filter validPos)).2 := rfl
  have hperm : ((np_unique_counts (ps.filter validPos)).2).Perm
      ((ps.filter validPos).dedup.map fun v => (ps.filter validPos).count v) :=
    (List.perm_insertionSort _ _).map _
  rw [hraw, hperm.sum_eq]
  exact List.sum_map_count_dedup_eq_length _

/-! ### `filter_trim.py` — fuzzy anchor matching

The script delegates approximate matching to the third-party `regex`
module (`(transposon_seq){e<=max_errors}` with `IGNORECASE`,
`filter_trim.py` line 109).  That engine is external to this repository,
so it is modelled from the spec: generalized edit-distance fuzzy search
returning the first (leftmost) acceptable match. -/

/-- Distances of the suffixes of `ys` to the empty string: entry `i` is
`(ys.drop i).length`. -/
def initRow : List Char → List Nat
  | [] => [0]
  | _ :: t => (t.length + 1) :: initRow t

/-- One Wagner–Fischer step: from the suffix-distance row of `xs`
against `ys`, compute the row of `x :: xs` against `ys`. -/
def nextRow (x : Char) : List Char → List Nat → List Nat
  | [], prev => [prev.headD 0 + 1]
  | y :: ys, prev =>
    let rest := nextRow x ys prev.tail
    min ((if x = y then 0 else 1) + prev.tail.headD 0)
      (min (1 + rest.headD 0) (1 + prev.headD 0)) :: rest

/-- Suffix rows of the Levenshtein distance: entry `i` of
`suffixDists xs ys` is the edit distance between `xs` and `ys.drop i`.
Structural recursion, so evaluation is polynomial and kernel-reducible. -/
def suffixDists : List Char → List Char → List Nat
  | [], ys => initRow ys
  | x :: xs, ys => nextRow x ys (suffixDists xs ys)

/-- Levenshtein edit distance with unit costs for insertion, deletion
and substitution — the error model of the `regex` module's `{e<=k}`
fuzzy constraint. -/
def editDist (xs ys : List Char) : Nat := (suffixDists xs ys).headD 0

theorem editDist_nil_left : ∀ ys : List Char, editDist [] ys = ys.length := by
  intro ys
  cases ys with
  | nil => rfl
  | cons y t => rfl

theorem suffixDists_cons_right (xs : List Char) (y : Char) (ys : List Char) :
    suffixDists xs (y :: ys) = editDist xs (y :: ys) :: suffixDists xs ys := by
  induction xs with
  | nil => rfl
  | cons x t ih =>
    show nextRow x (y :: ys) (suffixDists t (y :: ys)) = _
    rw [ih]
    show min ((if x = y then 0 else 1) + (suffixDists t ys).headD 0)
        (min (1 + (nextRow x ys (suffixDists t ys)).headD 0)
          (1 + (editDist t (y :: ys) :: suffixDists t ys).headD 0))
        :: nextRow x ys (suffixDists t ys) = _
    have hED : editDist (x :: t) (y :: ys) =
        min ((if x = y then 0 else 1) + (suffixDists t ys).headD 0)
          (min (1 + (nextRow x ys (suffixDists t ys)).headD 0)
            (1 + (editDist t (y :: ys) :: suffixDists t ys).headD 0)) := by
      show (nextRow x (y :: ys) (suffixDists t (y :: ys))).headD 0 = _
      rw [ih]
      rfl
    rw [← hED]
    rfl

theorem editDist_nil_right : ∀ xs : List Char, editDist xs [] = xs.length := by
  intro xs
  induction xs with
  | nil => rfl
  | cons x t ih =>
    show (nextRow x [] (suffixDists t [])).headD 0 = t.length + 1
    show (suffixDists t []).headD 0 + 1 = t.length + 1
    rw [show (suffixDists t []).headD 0 = editDist t [] from rfl, ih]

/-- The textbook Levenshtein recurrence, recovered from the row-based
implementation. -/
theorem editDist_cons_cons (x : Char) (xs : List Char) (y : Char) (ys : List Char) :
    editDist (x :: xs) (y :: ys) =
      min ((if x = y then 0 else 1) + editDist xs ys)
        (min (1 + editDist (x :: xs) ys) (1 + editDist xs (y :: ys))) := by
  show (suffixDists (x :: xs) (y :: ys)).headD 0 = _
  rw [suffixDists_cons_right]
  show editDist (x :: xs) (y :: ys) = _
  show (nextRow x (y :: ys) (suffixDists xs (y :: ys))).headD 0 = _
  rw [show suffixDists xs (y :: ys) = editDist xs (y :: ys) :: suffixDists xs ys from
    suffixDists_cons_right xs y ys]
  show min ((if x = y then 0 else 1) + (suffixDists xs ys).headD 0)
      (min (1 + (nextRow x ys (suffixDists xs ys)).headD 0)
        (1 + editDist xs (y :: ys))) = _
  rfl

/-- The edit distance is at least the difference of the lengths. -/
theorem length_le_editDist :
    ∀ xs ys : List Char, ys.length ≤ xs.length + editDist xs ys := by
  intro xs
  induction xs with
  | nil =>
    intro ys
    rw [editDist_nil_left]
    omega
  | cons x t ih =>
    intro ys
    induction ys with
    | nil => simp
    | cons y u ihy =>
      rw [editDist_cons_cons]
      have h1 := ih u
      have h2 := ih (y :: u)
      have h3 := ihy
      simp only [List.length_cons] at h1 h2 h3 ⊢
      omega

/-- Whether the substring `seq[s:e]` lies within edit distance `k` of
the anchor. -/
def matchesAt (seq anchor : List Char) (k s e : Nat) : Prop :=
  s ≤ e ∧ e ≤ seq.length ∧ editDist ((seq.take e).drop s) anchor ≤ k

instance (seq anchor : List Char) (k s e : Nat) :
    Decidable (matchesAt seq anchor k s e) :=
  inferInstanceAs (Decidable (_ ∧ _ ∧ _))

/-- Modelled from the spec: the `regex` module's fuzzy `search` (external
to this repository) returns the match with the leftmost start; here the
earliest end index acceptable at a given start. -/
def fuzzyMatchEnd (seq anchor : List Char) (k s : Nat) : Option Nat :=
  (List.range (seq.length + 1)).find? fun e => decide (matchesAt seq anchor k s e)

/-- Modelled from the spec: `pattern.search(seq)` for the compiled fuzzy
pattern `(anchor){e<=k}` — the leftmost start position (then earliest
end) at which some substring is within `k` edits of the anchor, or
`none`. -/
def fuzzySearch (seq anchor : List Char) (k : Nat) : Option (Nat × Nat) :=
  (List.range (seq.length + 1)).findSome? fun s =>
    (fuzzyMatchEnd seq anchor k s).map fun e => (s, e)

theorem find?_first {p : Nat → Bool} :
    ∀ l : List Nat, List.Pairwise (· < ·) l → ∀ a, l.find? p = some a →
      p a = true ∧ ∀ b ∈ l, b < a → p b = false := by
  intro l
  induction l with
  | nil =>
    intro _ a h
    simp at h
  | cons x t ih =>
    intro hpw a h
    obtain ⟨hx, hpt⟩ := List.pairwise_cons.mp hpw
    rw [List.find?_cons] at h
    cases hpx : p x with
    | true =>
      rw [hpx] at h
      injection h with h
      subst h
      refine ⟨hpx, ?_⟩
      intro b hb hba
      rcases List.mem_cons.mp hb with rfl | hbt
      · omega
      · exact absurd (hx b hbt) (by omega)
    | false =>
      rw [hpx] at h
      obtain ⟨hpa, hrest⟩ := ih hpt a h
      refine ⟨hpa, ?_⟩
      intro b hb hba
      rcases List.mem_cons.mp hb with rfl | hbt
      · exact hpx
      · exact hrest b hbt hba

theorem findSome?_first {g : Nat → Option Nat} :
    ∀ l : List Nat, List.Pairwise (· < ·) l → ∀ s e,
      (l.findSome? fun n => (g n).map fun m => (n, m)) = some (s, e) →
      g s = some e ∧ ∀ b ∈ l, b < s → g b = none := by
  intro l
  induction l with
  | nil =>
    intro _ s e h
    simp at h
  | cons x t ih =>
    intro hpw s e h
    obtain ⟨hx, hpt⟩ := List.pairwise_cons.mp hpw
    rw [List.findSome?_cons] at h
    cases hgx : (g x).map fun m => (x, m) with
    | some p =>
      rw [hgx] at h
      injection h with h
      subst h
      obtain ⟨m, hm, hp⟩ := Option.map_eq_some'.mp hgx
      cases hp
      refine ⟨hm, ?_⟩
      intro b hb hbx
      rcases List.mem_cons.mp hb with rfl | hbt
      · omega
      · exact absurd (hx b hbt) (by omega)
    | none =>
      rw [hgx] at h
      obtain ⟨hgs, hrest⟩ := ih hpt s e h
      refine ⟨hgs, ?_⟩
      intro b hb hbs
      rcases List.mem_cons.mp hb with rfl | hbt
      · exact Option.map_eq_none'.mp hgx
      · exact hrest b hbt hbs

/-- The default anchor of `filter_trim.py` (`--transposon_seq`). -/
def transposonSeq : List Char := "GGGGACTTATCAGCCAACCTGTTA".toList

/-- The anchor with exactly one substitution at position 5 (C→T). -/
def readOneSub : List Char := "GGGGATTTATCAGCCAACCTGTTA".toList

/-- Any acceptable match span covers at least `anchor.length - k`
characters, so its end index is at least `anchor.length - k` — in
particular at least 2 whenever `k + 2 ≤ anchor.length`, which justifies
the `2 ≤ matchEnd` hypothesis of the trimming theorem. -/
theorem match_end_lower_bound (seq anchor : List Char) (k s e : Nat)
    (h : matchesAt seq anchor k s e) : anchor.length ≤ e - s + k := by
  obtain ⟨hse, hel, hed⟩ := h
  have hlb := length_le_editDist ((seq.take e).drop s) anchor
  have hslice : ((seq.take e).drop s).length = e - s := by
    rw [List.length_drop, List.length_take]
    omega
  omega

set_option maxRecDepth 400000 in
/-- Witness for `match_end_lower_bound` at the one-substitution read. -/
theorem match_end_lower_bound_witness :
    matchesAt readOneSub transposonSeq 1 0 24 ∧ transposonSeq.length ≤ 24 - 0 + 1 := by
  constructor
  · decide
  · exact match_end_lower_bound readOneSub transposonSeq 1 0 24 (by decide)

set_option maxRecDepth 400000 in
/-- C8 (amended): the fuzzy matcher returns a leftmost-start (then
earliest-end) substring within `max_errors` edits of the anchor, or
`none` when no substring qualifies; an anchor longer than the read by
MORE than `max_errors` cannot match (an anchor merely longer than the
read still can, via deletions); and in the concrete scenario, the
default anchor with one substitution matches with `max_errors = 1` and
does not match with `max_errors = 0`. -/
theorem fuzzySearch_spec (seq anchor : List Char) (k : Nat) :
    (∀ s e, fuzzySearch seq anchor k = some (s, e) →
      matchesAt seq anchor k s e ∧
      (∀ s' e', s' < s → ¬ matchesAt seq anchor k s' e') ∧
      (∀ e', e' < e → ¬ matchesAt seq anchor k s e')) ∧
    (fuzzySearch seq anchor k = none → ∀ s e, ¬ matchesAt seq anchor k s e) ∧
    (seq.length + k < anchor.length → fuzzySearch seq anchor k = none) ∧
    fuzzySearch readOneSub transposonSeq 1 = some (0, 24) ∧
    fuzzySearch readOneSub transposonSeq 0 = none := by
  refine ⟨?_, ?_, ?_, by decide, by decide⟩
  · intro s e h
    rw [fuzzySearch] at h
    obtain ⟨hs, hearlier⟩ :=
      findSome?_first (List.range (seq.length + 1))
        (List.pairwise_lt_range _) s e h
    rw [fuzzyMatchEnd] at hs
    obtain ⟨hpe, hee⟩ :=
      find?_first (List.range (seq.length + 1)) (List.pairwise_lt_range _) e hs
    have hmatch : matchesAt seq anchor k s e := of_decide_eq_true hpe
    refine ⟨hmatch, ?_, ?_⟩
    · intro s' e' hs' hm
      have hsrange : s ∈ List.range (seq.length + 1) := by
        rw [List.mem_range]
        have := hmatch.2.1
        have := hmatch.1
        omega
      have hs'range : s' ∈ List.range (seq.length + 1) := by
        rw [List.mem_range] at hsrange ⊢
        omega
      have hnone := hearlier s' hs'range hs'
      rw [fuzzyMatchEnd, List.find?_eq_none] at hnone
      have he'range : e' ∈ List.range (seq.length + 1) := by
        rw [List.mem_range]
        have := hm.2.1
        omega
      exact hnone e' he'range (decide_eq_true hm)
    · intro e' he' hm
      have he'range : e' ∈ List.range (seq.length + 1) := by
        rw [List.mem_range]
        have := hm.2.1
        omega
      have := hee e' he'range he'
      rw [decide_eq_true hm] at this
      exact Bool.noConfusion this
  · intro h s e hm
    rw [fuzzySearch, List.findSome?_eq_none_iff] at h
    have hsrange : s ∈ List.range (seq.length + 1) := by
      rw [List.mem_range]
      have := hm.2.1
      have := hm.1
      omega
    have := h s hsrange
    rw [Option.map_eq_none', fuzzyMatchEnd, List.find?_eq_none] at this
    have he'range : e ∈ List.range (seq.length + 1) := by
      rw [List.mem_range]
      have := hm.2.1
      omega
    exact this e he'range (decide_eq_true hm)
  · intro hlong
    have hno : ∀ s e, ¬ matchesAt seq anchor k s e := by
      intro s e hm
      have := match_end_lower_bound seq anchor k s e hm
      have := hm.2.1
      omega
    rw [fuzzySearch, List.findSome?_eq_none_iff]
    intro s _
    rw [Option.map_eq_none', fuzzyMatchEnd, List.find?_eq_none]
    intro e _ hdec
    exact hno s e (of_decide_eq_true hdec)

/-- Witness for C8: the leftmost-match characterization applied at the
concrete scenario match. -/
theorem fuzzySearch_spec_witness :
    matchesAt readOneSub transposonSeq 1 0 24 ∧
    (∀ s' e', s' < 0 → ¬ matchesAt readOneSub transposonSeq 1 s' e') ∧
    (∀ e', e' < 24 → ¬ matchesAt readOneSub transposonSeq 1 0 e') :=
  (fuzzySearch_spec readOneSub transposonSeq 1).1 0 24
    (fuzzySearch_spec readOneSub transposonSeq 1).2.2.2.1

/-- C8 counterexample: the claim "if the anchor is longer than the read
it returns no match" is false — an anchor exceeding the read's length by
no more than the error budget still matches (the excess is absorbed by
deletions). -/
theorem anchor_longer_than_read_matches :
    ("GG".toList.length > "G".toList.length) ∧
    fuzzySearch "G".toList "GG".toList 1 = some (0, 1) := by
  exact ⟨by decide, by decide⟩

/-! ### `filter_trim.py` — trimming and the filter pipeline -/

/-- Clamping of one Python slice bound: a negative index counts from the
end of the list, and both directions clamp into `[0, len]`. -/
def pyBound (len : Nat) (i : Int) : Nat :=
  if i < 0 then (len + i).toNat else min i.toNat len

/-- Python `l[a:b]` (step 1). -/
def pySlice {α : Type} (l : List α) (a b : Int) : List α :=
  (l.take (pyBound l.length b)).drop (pyBound l.length a)

/-- Python `l[a:]`. -/
def pySliceFrom {α : Type} (l : List α) (a : Int) : List α :=
  l.drop (pyBound l.length a)

/-- The trimming step of `filter_and_process_fastq`
(`filter_trim.py` lines 127–137): `trim_position = match.span()[1] - 2`,
then `seq[trim_position:trim_position + trim_length]` (or
`seq[trim_position:]` when no trim length is set), and the identical
slice of the quality string. -/
def trimRead (seq qual : List Char) (matchEnd : Nat) (trim_length : Option Nat) :
    List Char × List Char :=
  let trim_position : Int := (matchEnd : Int) - 2
  match trim_length with
  | some L =>
    (pySlice seq trim_position (trim_position + L),
     pySlice qual trim_position (trim_position + L))
  | none => (pySliceFrom seq trim_position, pySliceFrom qual trim_position)

theorem pyBound_natCast (len a : Nat) : pyBound len (a : Int) = min a len := by
  unfold pyBound
  split <;> omega

theorem pyBound_natCast_add (len a L : Nat) :
    pyBound len ((a : Int) + (L : Int)) = min (a + L) len := by
  unfold pyBound
  split <;> omega

theorem pySliceFrom_natCast {α : Type} (l : List α) (a : Nat) :
    pySliceFrom l (a : Int) = l.drop a := by
  unfold pySliceFrom
  rw [pyBound_natCast]
  rcases le_or_lt a l.length with h | h
  · rw [min_eq_left h]
  · rw [min_eq_right h.le, List.drop_length]
    exact (List.drop_eq_nil_of_le h.le).symm

theorem pySlice_natCast {α : Type} (l : List α) (a L : Nat) :
    pySlice l (a : Int) ((a : Int) + (L : Int)) = (l.drop a).take L := by
  unfold pySlice
  rw [pyBound_natCast_add, pyBound_natCast, List.drop_take]
  rcases le_or_lt a l.length with h | h
  · rw [min_eq_left h]
    rcases le_or_lt (a + L) l.length with h2 | h2
    · rw [min_eq_left h2]
      congr 1
      omega
    · rw [min_eq_right h2.le]
      have hL : (l.drop a).length ≤ L := by
        rw [List.length_drop]
        omega
      have hL2 : (l.drop a).length ≤ l.length - a := by
        rw [List.length_drop]
      rw [List.take_of_length_le hL2, List.take_of_length_le hL]
  · rw [min_eq_right h.le, min_eq_right (by omega), Nat.sub_self]
    simp [List.drop_eq_nil_of_le h.le]

/-- C4: for a match whose span ends at index `matchEnd ≥ 2`, the
retained region starts exactly two bases before that end; with a trim
length it keeps exactly `trim_length` bases, or fewer when the read ends
earlier (never padding); without one it keeps everything to the end of
the read; and the quality string is sliced with the same bounds. -/
theorem trimRead_spec (seq qual : List Char) (e L : Nat) (h2 : 2 ≤ e) :
    (trimRead seq qual e (some L)).1 = (seq.drop (e - 2)).take L ∧
    (trimRead seq qual e (some L)).2 = (qual.drop (e - 2)).take L ∧
    (trimRead seq qual e (some L)).1.length = min L (seq.length - (e - 2)) ∧
    (trimRead seq qual e none).1 = seq.drop (e - 2) ∧
    (trimRead seq qual e none).2 = qual.drop (e - 2) := by
  have hcast : (e : Int) - 2 = ((e - 2 : Nat) : Int) := by omega
  have h1 : (trimRead seq qual e (some L)).1 = (seq.drop (e - 2)).take L := by
    show pySlice seq ((e : Int) - 2) ((e : Int) - 2 + (L : Int)) = _
    rw [hcast, pySlice_natCast]
  have hq : (trimRead seq qual e (some L)).2 = (qual.drop (e - 2)).take L := by
    show pySlice qual ((e : Int) - 2) ((e : Int) - 2 + (L : Int)) = _
    rw [hcast, pySlice_natCast]
  refine ⟨h1, hq, ?_, ?_, ?_⟩
  · rw [h1, List.length_take, List.length_drop]
  · show pySliceFrom seq ((e : Int) - 2) = _
    rw [hcast, pySliceFrom_natCast]
  · show pySliceFrom qual ((e : Int) - 2) = _
    rw [hcast, pySliceFrom_natCast]

/-- Witness for C4 at the spec's scenario numbers: a 40-base read, a
match ending at index 30, trim start 28, `trim_length = 10`. -/
theorem trimRead_spec_witness :
    (trimRead "ACGTACGTACGTACGTACGTACGTACGTACGTACGTACGT".toList
        "IIIIIIIIIIIIIIIIIIIIIIIIIIIIIIIIIIIIIIII".toList 30 (some 10)).1 =
      ("ACGTACGTACGTACGTACGTACGTACGTACGTACGTACGT".toList.drop 28).take 10 ∧
    (trimRead "ACGTACGTACGTACGTACGTACGTACGTACGTACGTACGT".toList
        "IIIIIIIIIIIIIIIIIIIIIIIIIIIIIIIIIIIIIIII".toList 30 (some 10)).2 =
      ("IIIIIIIIIIIIIIIIIIIIIIIIIIIIIIIIIIIIIIII".toList.drop 28).take 10 ∧
    (trimRead "ACGTACGTACGTACGTACGTACGTACGTACGTACGTACGT".toList
        "IIIIIIIIIIIIIIIIIIIIIIIIIIIIIIIIIIIIIIII".toList 30 (some 10)).1.length =
      min 10 ("ACGTACGTACGTACGTACGTACGTACGTACGTACGTACGT".toList.length - 28) ∧
    (trimRead "ACGTACGTACGTACGTACGTACGTACGTACGTACGTACGT".toList
        "IIIIIIIIIIIIIIIIIIIIIIIIIIIIIIIIIIIIIIII".toList 30 none).1 =
      "ACGTACGTACGTACGTACGTACGTACGTACGTACGTACGT".toList.drop 28 ∧
    (trimRead "ACGTACGTACGTACGTACGTACGTACGTACGTACGTACGT".toList
        "IIIIIIIIIIIIIIIIIIIIIIIIIIIIIIIIIIIIIIII".toList 30 none).2 =
      "IIIIIIIIIIIIIIIIIIIIIIIIIIIIIIIIIIIIIIII".toList.drop 28 :=
  trimRead_spec "ACGTACGTACGTACGTACGTACGTACGTACGTACGTACGT".toList
    "IIIIIIIIIIIIIIIIIIIIIIIIIIIIIIIIIIIIIIII".toList 30 10 (by decide)

/-- One record of the input FastQ stream. -/
structure FastqRecord where
  title : List Char
  seq : List Char
  qual : List Char

/-- `pattern.search(seq)` for one read: the pattern is compiled with
`re.IGNORECASE` (`filter_trim.py` line 109), so both the read and the
anchor are compared case-insensitively; spans refer to positions of the
original read (uppercasing preserves positions). -/
def searchRead (transposon_seq : List Char) (max_errors : Nat)
    (r : FastqRecord) : Option (Nat × Nat) :=
  fuzzySearch (r.seq.map Char.toUpper) (transposon_seq.map Char.toUpper) max_errors

/-- The main loop of `filter_and_process_fastq`
(`filter_trim.py` lines 120–147), with the running read counter as an
explicit argument (the script increments `counter` first and appends
`counter - 1`, i.e. the zero-based index of the read being processed).
For each read with a fuzzy match it emits the trimmed record, the UMI
(first `umi_length` bases of the original sequence) and the read's
zero-based index; reads without a match contribute nothing. -/
def filter_and_process_fastq (transposon_seq : List Char) (max_errors : Nat)
    (trim_length : Option Nat) (umi_length : Nat) :
    List FastqRecord → Nat → List FastqRecord × List (List Char) × List Nat
  | [], _ => ([], [], [])
  | r :: rs, counter =>
    let rest := filter_and_process_fastq transposon_seq max_errors trim_length
      umi_length rs (counter + 1)
    match searchRead transposon_seq max_errors r with
    | some m =>
      (⟨r.title, (trimRead r.seq r.qual m.2 trim_length).1,
          (trimRead r.seq r.qual m.2 trim_length).2⟩ :: rest.1,
        r.seq.take umi_length :: rest.2.1,
        counter :: rest.2.2)
    | none => rest

theorem pipeline_from (ts : List Char) (k : Nat) (tl : Option Nat) (ul : Nat) :
    ∀ (reads : List FastqRecord) (c : Nat),
      ((filter_and_process_fastq ts k tl ul reads c).1.length =
        (filter_and_process_fastq ts k tl ul reads c).2.2.length) ∧
      ((filter_and_process_fastq ts k tl ul reads c).2.1.length =
        (filter_and_process_fastq ts k tl ul reads c).2.2.length) ∧
      ((filter_and_process_fastq ts k tl ul reads c).2.2 =
        ((List.enumFrom c reads).filter fun p => (searchRead ts k p.2).isSome).map
          fun p => p.1) := by
  intro reads
  induction reads with
  | nil =>
    intro c
    simp [filter_and_process_fastq]
  | cons r rs ih =>
    intro c
    obtain ⟨ih1, ih2, ih3⟩ := ih (c + 1)
    cases hm : searchRead ts k r with
    | some m =>
      simp only [filter_and_process_fastq, hm, List.enumFrom_cons, List.filter_cons]
      simp [hm, ih1, ih2, ih3]
    | none =>
      simp only [filter_and_process_fastq, hm, List.enumFrom_cons, List.filter_cons]
      simp [hm, ih1, ih2, ih3]

theorem enumFrom_pairwise_fst {α : Type} :
    ∀ (l : List α) (c : Nat),
      List.Pairwise (fun p q : Nat × α => p.1 < q.1) (List.enumFrom c l) := by
  intro l
  induction l with
  | nil =>
    intro c
    simp
  | cons a t ih =>
    intro c
    rw [List.enumFrom_cons, List.pairwise_cons]
    refine ⟨?_, ih (c + 1)⟩
    intro q hq
    rcases q with ⟨i, x⟩
    exact lt_of_lt_of_le (by omega) (List.mem_enumFrom hq).1

/-- C5: the three output artifacts have one entry per passing read
(equal lengths), and the pass-filter index list is exactly the
subsequence of all zero-based read indices whose anchor match succeeded,
in input order — hence strictly ascending. -/
theorem pipeline_outputs_spec (ts : List Char) (k : Nat) (tl : Option Nat)
    (ul : Nat) (reads : List FastqRecord) :
    ((filter_and_process_fastq ts k tl ul reads 0).1.length =
      (filter_and_process_fastq ts k tl ul reads 0).2.2.length) ∧
    ((filter_and_process_fastq ts k tl ul reads 0).2.1.length =
      (filter_and_process_fastq ts k tl ul reads 0).2.2.length) ∧
    ((filter_and_process_fastq ts k tl ul reads 0).2.2 =
      (reads.enum.filter fun p => (searchRead ts k p.2).isSome).map
        fun p => p.1) ∧
    List.Pairwise (· < ·) (filter_and_process_fastq ts k tl ul reads 0).2.2 := by
  obtain ⟨h1, h2, h3⟩ := pipeline_from ts k tl ul reads 0
  refine ⟨h1, h2, h3, ?_⟩
  rw [h3, List.pairwise_map]
  exact (enumFrom_pairwise_fst reads 0).filter _

/-- C6: the UMI list holds, for each passing read in input order, the
first `umi_length` bases of the original untrimmed sequence; failing
reads contribute no UMI. -/
theorem umi_from_untrimmed_prefix (ts : List Char) (k : Nat) (tl : Option Nat)
    (ul : Nat) :
    ∀ (reads : List FastqRecord) (c : Nat),
      (filter_and_process_fastq ts k tl ul reads c).2.1 =
        (reads.filter fun r => (searchRead ts k r).isSome).map
          fun r => r.seq.take ul := by
  intro reads
  induction reads with
  | nil =>
    intro c
    simp [filter_and_process_fastq]
  | cons r rs ih =>
    intro c
    cases hm : searchRead ts k r with
    | some m =>
      simp only [filter_and_process_fastq, hm, List.filter_cons]
      simp [hm, ih (c + 1)]
    | none =>
      simp only [filter_and_process_fastq, hm, List.filter_cons]
      simp [hm, ih (c + 1)]

end UmiTnseq
